import Mathlib

/-!
Shallow embedding of the markdown-to-structured-JSON converter of this
repository (shared/parser.ts, the PKM route-level parser in
server/routes.ts, and shared/pkm-parser.ts), together with proofs that
settle the frozen claims about it.  Strings are modelled as `List Char`;
JavaScript regular-expression scans are modelled as explicit fuel-based
scanners with the same leftmost-match, lazy/greedy and `lastIndex`
semantics as the source.
-/

set_option maxRecDepth 10000

namespace MdParser

/-- JS whitespace: the characters matched by `\s` and removed by `trim`
(restricted to the code points these sources can encounter). -/
def isWs (c : Char) : Bool :=
  c = ' ' || c = '\t' || c = '\n' || c = '\r' || c = '\x0b' || c = '\x0c' || c = ' '

/-- `String.prototype.trim`. -/
def trimC (s : List Char) : List Char :=
  ((s.dropWhile isWs).reverse.dropWhile isWs).reverse

/-- Truthiness of `s.trim()`: the string contains a non-whitespace character. -/
def hasNonWs (s : List Char) : Bool :=
  s.any (fun c => !isWs c)

/-- `String.prototype.startsWith`. -/
def startsWithC : List Char → List Char → Bool
  | _, [] => true
  | [], _ :: _ => false
  | c :: s, p :: ps => c = p && startsWithC s ps

/-- `s.slice(a, b)` for `a ≤ b` (JS clamps; callers only use it in range). -/
def slice (s : List Char) (a b : Nat) : List Char :=
  (s.drop a).take (b - a)

/-- Index of the first occurrence of `pat` as a contiguous sublist. -/
def findSubIdx (pat : List Char) : List Char → Option Nat
  | [] => if startsWithC [] pat then some 0 else none
  | c :: rest =>
    if startsWithC (c :: rest) pat then some 0
    else (findSubIdx pat rest).map (· + 1)

/-- `String.prototype.split` with a single-character separator: splits at
every occurrence, keeping empty fields. -/
def splitChar (sep : Char) : List Char → List (List Char)
  | [] => [[]]
  | c :: rest =>
    if c = sep then [] :: splitChar sep rest
    else
      match splitChar sep rest with
      | f :: fs => (c :: f) :: fs
      | [] => [[c]]

/-- `String.prototype.split` with a `[...]+` class regex: splits at every
maximal run of separator characters, keeping empty boundary fields
(fuel-based; the fuel is always instantiated with the input length). -/
def splitRunsF (p : Char → Bool) : Nat → List Char → List Char → List (List Char)
  | 0, acc, s => [acc.reverse ++ s]
  | _ + 1, acc, [] => [acc.reverse]
  | fuel + 1, acc, c :: rest =>
    if p c then acc.reverse :: splitRunsF p fuel [] (rest.dropWhile p)
    else splitRunsF p fuel (c :: acc) rest

def splitRuns (p : Char → Bool) (s : List Char) : List (List Char) :=
  splitRunsF p s.length [] s

/-- One global regex-replace pass (`String.prototype.replace` with the `g`
flag): at each position the matcher `f` receives the start-of-line flag and
the remaining text and yields the match length and replacement; a match
resumes scanning after the matched original text, a failure advances one
character.  All matchers used here match at least one character. -/
def scanRepl (f : Bool → List Char → Option (Nat × List Char)) :
    Nat → Bool → List Char → List Char
  | 0, _, s => s
  | _ + 1, _, [] => []
  | fuel + 1, ls, c :: rest =>
    match f ls (c :: rest) with
    | some (n + 1, r) =>
      r ++ scanRepl f fuel ((c :: rest)[n]? == some '\n') ((c :: rest).drop (n + 1))
    | _ => c :: scanRepl f fuel (c == '\n') rest

def runRepl (f : Bool → List Char → Option (Nat × List Char)) (s : List Char) : List Char :=
  scanRepl f s.length true s

/-- ASCII `\w`. -/
def isWordChar (c : Char) : Bool :=
  c.isAlpha || c.isDigit || c = '_'

/-- The hashtag character class of shared/parser.ts: `[A-Za-z0-9_-]`. -/
def isTagCharS (c : Char) : Bool :=
  c.isAlpha || c.isDigit || c = '_' || c = '-'

/-- The hashtag character class of server/routes.ts: the shared class
plus the slash character. -/
def isTagCharR (c : Char) : Bool :=
  isTagCharS c || c = '/'

/-! ### countWords (shared/parser.ts lines 18-32, identical in routes.ts) -/

/-- Matcher for ```` /```[\s\S]*?```/ ```` replaced by a space. -/
def fencedWM (_ : Bool) (s : List Char) : Option (Nat × List Char) :=
  if startsWithC s ['`', '`', '`'] then
    match findSubIdx ['`', '`', '`'] (s.drop 3) with
    | some j => some (3 + j + 3, [' '])
    | none => none
  else none

/-- Matcher for `` /`[^`]*`/ `` replaced by a space. -/
def codeWM (_ : Bool) (s : List Char) : Option (Nat × List Char) :=
  match s with
  | '`' :: rest =>
    match rest.findIdx? (· = '`') with
    | some k => some (k + 2, [' '])
    | none => none
  | _ => none

/-- Matcher for `/!\[[^\]]*\]\([^)]*\)/` (images) replaced by a space. -/
def imgWM (_ : Bool) (s : List Char) : Option (Nat × List Char) :=
  match s with
  | '!' :: '[' :: r =>
    match r.findIdx? (· = ']') with
    | some a =>
      match r.drop (a + 1) with
      | '(' :: r2 =>
        match r2.findIdx? (· = ')') with
        | some b => some (a + b + 5, [' '])
        | none => none
      | _ => none
    | none => none
  | _ => none

/-- Matcher for `/\[([^\]]+)\]\(([^)]*)\)/` replaced by the link text. -/
def linkWM (_ : Bool) (s : List Char) : Option (Nat × List Char) :=
  match s with
  | '[' :: r =>
    match r.findIdx? (· = ']') with
    | some a =>
      if a = 0 then none
      else
        match r.drop (a + 1) with
        | '(' :: r2 =>
          match r2.findIdx? (· = ')') with
          | some b => some (a + b + 4, r.take a)
          | none => none
        | _ => none
    | none => none
  | _ => none

/-- Matcher for `/^\s*>\s?/m` (blockquote markers) removed. -/
def bqWM (ls : Bool) (s : List Char) : Option (Nat × List Char) :=
  if ls then
    let w := (s.takeWhile isWs).length
    match s.drop w with
    | '>' :: r =>
      match r with
      | c :: _ => if isWs c then some (w + 2, []) else some (w + 1, [])
      | [] => some (w + 1, [])
    | _ => none
  else none

/-- Matcher for `/^\s{0,3}#{1,6}\s+/m` (heading markers) removed. -/
def hdWM (ls : Bool) (s : List Char) : Option (Nat × List Char) :=
  if ls then
    let w := (s.takeWhile isWs).length
    if 3 < w then none
    else
      let t := s.drop w
      let hs := (t.takeWhile (· = '#')).length
      if 1 ≤ hs && hs ≤ 6 then
        let w2 := ((t.drop hs).takeWhile isWs).length
        if w2 = 0 then none else some (w + hs + w2, [])
      else none
  else none

/-- Matcher for `/^\s*[-*+]\s+/m` (unordered list markers) removed. -/
def ulWM (ls : Bool) (s : List Char) : Option (Nat × List Char) :=
  if ls then
    let w := (s.takeWhile isWs).length
    match s.drop w with
    | c :: r =>
      if c = '-' || c = '*' || c = '+' then
        let w2 := (r.takeWhile isWs).length
        if w2 = 0 then none else some (w + 1 + w2, [])
      else none
    | [] => none
  else none

/-- Matcher for `/^\s*\d+\.\s+/m` (ordered list markers) removed. -/
def olWM (ls : Bool) (s : List Char) : Option (Nat × List Char) :=
  if ls then
    let w := (s.takeWhile isWs).length
    let t := s.drop w
    let ds := (t.takeWhile Char.isDigit).length
    if ds = 0 then none
    else
      match t.drop ds with
      | '.' :: r =>
        let w2 := (r.takeWhile isWs).length
        if w2 = 0 then none else some (w + ds + 1 + w2, [])
      | _ => none
  else none

/-- Matcher for `/<[^>]+>/` (HTML tags) replaced by a space. -/
def htmlPlusM (_ : Bool) (s : List Char) : Option (Nat × List Char) :=
  match s with
  | '<' :: r =>
    match r.findIdx? (· = '>') with
    | some j => if j = 0 then none else some (j + 2, [' '])
    | none => none
  | _ => none

/-- Matcher for `/[\n\r\t]+/` replaced by a space. -/
def nlRunM (_ : Bool) (s : List Char) : Option (Nat × List Char) :=
  let n := (s.takeWhile (fun c => c = '\n' || c = '\r' || c = '\t')).length
  if n = 0 then none else some (n, [' '])

/-- Matcher for `/\s+/` replaced by a space. -/
def wsRunM (_ : Bool) (s : List Char) : Option (Nat × List Char) :=
  let n := (s.takeWhile isWs).length
  if n = 0 then none else some (n, [' '])

/-- `countWords` of shared/parser.ts: the ordered stripping pipeline of
spec section 4.5 followed by whitespace tokenization. -/
def countWords (markdown : List Char) : Nat :=
  let t := runRepl fencedWM markdown
  let t := runRepl codeWM t
  let t := runRepl imgWM t
  let t := runRepl linkWM t
  let t := runRepl bqWM t
  let t := runRepl hdWM t
  let t := runRepl ulWM t
  let t := runRepl olWM t
  let t := t.filter (fun c => !(c = '*' || c = '_' || c = '~'))
  let t := runRepl htmlPlusM t
  let t := runRepl nlRunM t
  let t := runRepl wsRunM t
  let t := trimC t
  if t.isEmpty then 0 else (splitRuns isWs t).length

/-! ### parseInlineElements (shared/parser.ts lines 34-86) -/

/-- An inline span of shared/parser.ts (`type` plus `content`/`url`). -/
inductive SpanT where
  | text (content : List Char)
  | strong (content : List Char)
  | emphasis (content : List Char)
  | link (content : List Char) (url : List Char)
  | code (content : List Char)
deriving DecidableEq, Repr

def SpanT.isText : SpanT → Bool
  | .text _ => true
  | _ => false

/-- A recorded regex match: payload plus `start`/`end` source offsets. -/
structure Hit (α : Type) where
  data : α
  start : Nat
  stop : Nat
deriving DecidableEq, Repr

/-- Lazy scan of `(.*?)` up to `closer` (the dot does not match a line
terminator); returns the captured content and the count of characters
consumed including the closer. -/
def lazyUntil (closer : List Char) : List Char → Option (List Char × Nat)
  | [] => none
  | c :: rest =>
    if startsWithC (c :: rest) closer then some ([], closer.length)
    else if c = '\n' || c = '\r' then none
    else (lazyUntil closer rest).map (fun p => (c :: p.1, p.2 + 1))

/-- Match of `/\*\*(.*?)\*\*/` at the current position. -/
def strongAt : List Char → Option (Nat × SpanT)
  | '*' :: '*' :: r =>
    (lazyUntil ['*', '*'] r).map (fun p => (2 + p.2, SpanT.strong p.1))
  | _ => none

/-- Match of `/\*(.*?)\*/` at the current position. -/
def emAt : List Char → Option (Nat × SpanT)
  | '*' :: r =>
    (lazyUntil ['*'] r).map (fun p => (1 + p.2, SpanT.emphasis p.1))
  | _ => none

/-- Match of `/\[([^\]]+)\]\(([^)]+)\)/` at the current position,
yielding the link text and url. -/
def linkPairAt : List Char → Option (Nat × (List Char × List Char)) :=
  fun s =>
    match s with
    | '[' :: r =>
      match r.findIdx? (· = ']') with
      | some a =>
        if a = 0 then none
        else
          match r.drop (a + 1) with
          | '(' :: r2 =>
            match r2.findIdx? (· = ')') with
            | some b =>
              if b = 0 then none
              else some (a + b + 4, (r.take a, r2.take b))
            | none => none
          | _ => none
      | none => none
    | _ => none

def linkAt (s : List Char) : Option (Nat × SpanT) :=
  (linkPairAt s).map (fun p => (p.1, SpanT.link p.2.1 p.2.2))

/-- Match of `` /`([^`]+)`/ `` at the current position. -/
def codeAt : List Char → Option (Nat × SpanT)
  | '`' :: r =>
    match r.findIdx? (· = '`') with
    | some k => if k = 0 then none else some (k + 2, SpanT.code (r.take k))
    | _ => none
  | _ => none

/-- `RegExp.prototype.exec` driven to exhaustion with the `g` flag:
collect every non-overlapping leftmost match, resuming after each match
(fuel-based; instantiated with the input length). -/
def execAllF (f : List Char → Option (Nat × α)) :
    Nat → Nat → List Char → List (Hit α)
  | 0, _, _ => []
  | _ + 1, _, [] => []
  | fuel + 1, pos, c :: rest =>
    match f (c :: rest) with
    | some (n + 1, d) =>
      ⟨d, pos, pos + (n + 1)⟩ :: execAllF f fuel (pos + (n + 1)) ((c :: rest).drop (n + 1))
    | _ => execAllF f fuel (pos + 1) rest

def execAll (f : List Char → Option (Nat × α)) (s : List Char) : List (Hit α) :=
  execAllF f s.length 0 s

/-- Does offset `i` fall inside one of the already-recorded matches? -/
def insideAny (ms : List (Hit SpanT)) (i : Nat) : Bool :=
  ms.any (fun m => m.start ≤ i && i < m.stop)

/-- The emphasis filter of shared/parser.ts: an emphasis match is kept only
if its start is not inside a match already pushed into the accumulating
`matches` array (the strong matches plus previously kept emphasis matches). -/
def filterEms (prior : List (Hit SpanT)) : List (Hit SpanT) → List (Hit SpanT)
  | [] => []
  | e :: es =>
    if insideAny prior e.start then filterEms prior es
    else e :: filterEms (prior ++ [e]) es

/-- Stable insertion preserving original order among equal start offsets,
modelling the stable `Array.prototype.sort` comparator on `start`. -/
def insertM (x : Hit α) : List (Hit α) → List (Hit α)
  | [] => [x]
  | y :: ys => if x.start ≤ y.start then x :: y :: ys else y :: insertM x ys

def sortByStart : List (Hit α) → List (Hit α)
  | [] => []
  | x :: xs => insertM x (sortByStart xs)

/-- The source text a span was matched from. -/
def sourceText : SpanT → List Char
  | .text c => c
  | .strong c => '*' :: '*' :: c ++ ['*', '*']
  | .emphasis c => '*' :: c ++ ['*']
  | .link t u => '[' :: t ++ [']', '('] ++ u ++ [')']
  | .code c => '`' :: c ++ ['`']

/-- The left-to-right emission walk over the sorted matches: a gap before a
match, and the trailing remainder, become Text spans only when their trim
is non-empty. -/
def emitLoop (text : List Char) : List (Hit SpanT) → Nat → List SpanT
  | [], last =>
    if last < text.length && hasNonWs (text.drop last) then
      [SpanT.text (text.drop last)]
    else []
  | m :: ms, last =>
    (if last < m.start && hasNonWs (slice text last m.start) then
      [SpanT.text (slice text last m.start)]
     else []) ++ m.data :: emitLoop text ms m.stop

/-- Matcher for `/<[^>]*>/` (the fallback HTML strip) removed. -/
def htmlStarM (_ : Bool) (s : List Char) : Option (Nat × List Char) :=
  match s with
  | '<' :: r =>
    match r.findIdx? (· = '>') with
    | some j => some (j + 2, [])
    | none => none
  | _ => none

/-- All collected inline matches of a line, sorted by start offset:
strong first, then emphasis matches surviving the bold-precedence filter,
then links, then inline code. -/
def collectInline (text : List Char) : List (Hit SpanT) :=
  let strongs := execAll strongAt text
  let ems := filterEms strongs (execAll emAt text)
  let links := execAll linkAt text
  let codes := execAll codeAt text
  sortByStart (strongs ++ ems ++ links ++ codes)

/-- `parseInlineElements` of shared/parser.ts. -/
def parseInlineElements (text : List Char) : List SpanT :=
  let els := emitLoop text (collectInline text) 0
  if els.isEmpty && hasNonWs text then [SpanT.text (runRepl htmlStarM text)]
  else els

/-! ### Frontmatter handling (shared/parser.ts lines 94-128) -/

/-- ASCII lower-casing, as `String.prototype.toLowerCase` acts on the
characters these keys contain. -/
def lcChar (c : Char) : Char :=
  if 65 ≤ c.toNat && c.toNat ≤ 90 then Char.ofNat (c.toNat + 32) else c

def lcStr (s : List Char) : List Char :=
  s.map lcChar

/-- The quote/whitespace stripping applied to each frontmatter tag entry:
a leading run of quotes, hyphens and whitespace and a trailing run of
quotes and whitespace are removed. -/
def stripQuotes (s : List Char) : List Char :=
  let s := s.dropWhile (fun c => c = '"' || c = '\'' || c = '-' || isWs c)
  (s.reverse.dropWhile (fun c => c = '"' || c = '\'' || isWs c)).reverse

/-- The frontmatter-derived fields of shared/parser.ts: pushed tags and the
raw `created`/`updated` values accepted as dates (`none` means the
current-time default). -/
structure FmOut where
  tags : List (List Char)
  created : Option (List Char)
  updated : Option (List Char)
deriving DecidableEq, Repr

/-- Process one frontmatter line: split on `:`, trim and lower-case the
key, then dispatch on `tags` / `created(_at)` / `updated(_at)`.  Date
validity (`!isNaN(new Date(value).getTime())` in the source, whose exact
behaviour is implementation-defined in JS) is abstracted as the
`validDate` parameter. -/
def applyFmLine (validDate : List Char → Bool) (line : List Char) (st : FmOut) : FmOut :=
  match splitChar ':' line with
  | [] => st
  | rawKey :: rest =>
    if rawKey.isEmpty || rest.isEmpty then st
    else
      let key := lcStr (trimC rawKey)
      let value := trimC (List.intercalate [':'] rest)
      if key = "tags".data then
        let src :=
          if startsWithC value ['['] && value.getLast? == some ']' then
            (value.drop 1).dropLast
          else value
        let items := ((splitRuns (fun c => c = ',' || isWs c) src).map stripQuotes).filter
          (fun t => !t.isEmpty)
        { st with tags := st.tags ++ items }
      else if key = "created".data || key = "created_at".data then
        if validDate value then { st with created := some value } else st
      else if key = "updated".data || key = "updated_at".data then
        if validDate value then { st with updated := some value } else st
      else st

/-- The frontmatter block match (regex `^---` newline, lazy content,
newline `---`): the raw inner text and the remaining body (after
`trimStart`), or `none` when the document does not begin with a
delimited block. -/
def fmSplit (markdown : List Char) : Option (List Char × List Char) :=
  if startsWithC markdown ['-', '-', '-', '\n'] then
    match findSubIdx ['\n', '-', '-', '-'] (markdown.drop 4) with
    | some j => some (slice markdown 4 (4 + j), (markdown.drop (4 + j + 4)).dropWhile isWs)
    | none => none
  else none

/-! ### Hashtag and wikilink scans -/

/-- Scan of `(^|\s)#(tagchars+)` with the `g` flag: a hashtag needs the
string start or a whitespace character before `#` and at least one tag
character after it; scanning resumes after each match. -/
def tagScanF (tc : Char → Bool) : Nat → Bool → List Char → List (List Char)
  | 0, _, _ => []
  | _ + 1, _, [] => []
  | fuel + 1, isFirst, c :: rest =>
    if isFirst && c = '#' then
      match rest.takeWhile tc with
      | [] => tagScanF tc fuel false rest
      | tag => tag :: tagScanF tc fuel false (rest.drop tag.length)
    else if isWs c then
      match rest with
      | '#' :: r2 =>
        match r2.takeWhile tc with
        | [] => tagScanF tc fuel false rest
        | tag => tag :: tagScanF tc fuel false (r2.drop tag.length)
      | _ => tagScanF tc fuel false rest
    else tagScanF tc fuel false rest

/-- The hashtag scan of shared/parser.ts (no fence stripping, no slash in
the character class). -/
def sharedTagScan (md : List Char) : List (List Char) :=
  tagScanF isTagCharS md.length true md

/-- Scan of `/\[\[([^\]]+)\]\]/g`, yielding raw bracket contents. -/
def wikiScanF : Nat → List Char → List (List Char)
  | 0, _ => []
  | _ + 1, [] => []
  | fuel + 1, c :: rest =>
    if c = '[' then
      match rest with
      | '[' :: r2 =>
        let cont := r2.takeWhile (· ≠ ']')
        if cont.isEmpty then wikiScanF fuel rest
        else if startsWithC (r2.drop cont.length) [']', ']'] then
          cont :: wikiScanF fuel (r2.drop (cont.length + 2))
        else wikiScanF fuel rest
      | _ => wikiScanF fuel rest
    else wikiScanF fuel rest

def wikiScan (md : List Char) : List (List Char) :=
  wikiScanF md.length md

/-- `Array.from(new Set(...))`: deduplication preserving first-seen order. -/
def dedupFirstAux (seen : List (List Char)) : List (List Char) → List (List Char)
  | [] => []
  | x :: xs =>
    if seen.contains x then dedupFirstAux seen xs
    else x :: dedupFirstAux (seen ++ [x]) xs

def dedupFirst (l : List (List Char)) : List (List Char) :=
  dedupFirstAux [] l

/-! ### The block parser (shared/parser.ts lines 141-231) -/

/-- Match of `\s+(.+)$` after a marker, with the regex backtracking
semantics: the greedy `\s+` yields its last character to `(.+)` when
nothing else remains. -/
def wsPlusRest (t : List Char) : Option (List Char) :=
  let k := (t.takeWhile isWs).length
  if k = 0 then none
  else
    match t.drop k with
    | [] => if 2 ≤ k then ((t.take k).getLast?).map (fun c => [c]) else none
    | rest => some rest

/-- Match of `/^(#{1,6})\s+(.+)$/`: heading level and text. -/
def headingM (t : List Char) : Option (Nat × List Char) :=
  let hs := (t.takeWhile (· = '#')).length
  if 1 ≤ hs && hs ≤ 6 then (wsPlusRest (t.drop hs)).map (fun c => (hs, c))
  else none

/-- The language tag of a fence line: `/^` ``` `(\w+)?/` ``` with default
`text`. -/
def langOf (t : List Char) : List Char :=
  let w := (t.drop 3).takeWhile isWordChar
  if w.isEmpty then "text".data else w

/-- Match of `/^[-*_]{3,}$/` (horizontal rule). -/
def isHr (t : List Char) : Bool :=
  3 ≤ t.length && t.all (fun c => c = '-' || c = '*' || c = '_')

/-- Match of `/^[\s]*[-*+]\s+(.+)$/` (unordered list item), yielding the
item content. -/
def ulistM (t : List Char) : Option (List Char) :=
  match t.drop ((t.takeWhile isWs).length) with
  | c :: r =>
    if c = '-' || c = '*' || c = '+' then wsPlusRest r else none
  | [] => none

/-- Match of `/^[\s]*\d+\.\s+(.+)$/` (ordered list item). -/
def olistM (t : List Char) : Option (List Char) :=
  if ((t.drop ((t.takeWhile isWs).length)).takeWhile Char.isDigit).length = 0 then none
  else
    match (t.drop ((t.takeWhile isWs).length)).drop
        (((t.drop ((t.takeWhile isWs).length)).takeWhile Char.isDigit).length) with
    | '.' :: r => wsPlusRest r
    | _ => none

/-- The classification a trimmed line receives from the block parser's
dispatch, in the source's test order: blank, heading, code fence,
blockquote, horizontal rule, unordered item, ordered item, paragraph. -/
inductive LineClass where
  | blank
  | heading (level : Nat) (content : List Char)
  | fenceOpen (language : List Char)
  | blockquote (content : List Char)
  | hrule
  | uitem (content : List Char)
  | oitem (content : List Char)
  | para
deriving DecidableEq, Repr

def classifyLine (t : List Char) : LineClass :=
  if t.isEmpty then .blank
  else
    match headingM t with
    | some (lv, c) => .heading lv c
    | none =>
      if startsWithC t ['`', '`', '`'] then .fenceOpen (langOf t)
      else if startsWithC t ['>'] then .blockquote (trimC (t.drop 1))
      else if isHr t then .hrule
      else
        match ulistM t with
        | some c => .uitem c
        | none =>
          match olistM t with
          | some c => .oitem c
          | none => .para

/-- A block of the structured document. -/
inductive Block where
  | heading (level : Nat) (content : List Char)
  | code_block (language : List Char) (content : List Char)
  | blockquote (content : List Char)
  | horizontal_rule
  | list (ordered : Bool) (items : List (List Char))
  | paragraph_text (content : List Char)
  | paragraph (children : List SpanT)
deriving DecidableEq, Repr

/-- Code-capture mode: consume raw lines until a line whose trim starts
with a fence marker (which is skipped) or end of input. -/
def captureCode : List (List Char) → List (List Char) × List (List Char)
  | [] => ([], [])
  | l :: rest =>
    if startsWithC (trimC l) ['`', '`', '`'] then ([], rest)
    else
      let p := captureCode rest
      (l :: p.1, p.2)

/-- List-capture mode: consume lines matching the item pattern, skip blank
lines, stop at the first other line. -/
def captureList (pred : List Char → Option (List Char)) :
    List (List Char) → List (List Char) × List (List Char)
  | [] => ([], [])
  | l :: rest =>
    match pred (trimC l) with
    | some c =>
      let p := captureList pred rest
      (c :: p.1, p.2)
    | none =>
      if (trimC l).isEmpty then captureList pred rest
      else ([], l :: rest)

theorem captureCode_len (ls : List (List Char)) : (captureCode ls).2.length ≤ ls.length := by
  induction ls with
  | nil => simp [captureCode]
  | cons l rest ih =>
    simp only [captureCode]
    split
    · simp
    · simpa using Nat.le_succ_of_le ih

theorem captureList_len (pred : List Char → Option (List Char)) (ls : List (List Char)) :
    (captureList pred ls).2.length ≤ ls.length := by
  induction ls with
  | nil => simp [captureList]
  | cons l rest ih =>
    simp only [captureList]
    split
    · simpa using Nat.le_succ_of_le ih
    · split
      · exact Nat.le_succ_of_le ih
      · simp

/-- The block parser's line-cursor loop. -/
def parseLoop : List (List Char) → List Block
  | [] => []
  | l :: rest =>
    match classifyLine (trimC l) with
    | .blank => parseLoop rest
    | .heading lv c => .heading lv c :: parseLoop rest
    | .fenceOpen lang =>
      let p := captureCode rest
      .code_block lang (List.intercalate ['\n'] p.1) :: parseLoop p.2
    | .blockquote c => .blockquote c :: parseLoop rest
    | .hrule => .horizontal_rule :: parseLoop rest
    | .uitem c =>
      let p := captureList ulistM rest
      .list false (c :: p.1) :: parseLoop p.2
    | .oitem c =>
      let p := captureList olistM rest
      .list true (c :: p.1) :: parseLoop p.2
    | .para =>
      (match parseInlineElements (trimC l) with
       | [SpanT.text c] => Block.paragraph_text c
       | cs => Block.paragraph cs) :: parseLoop rest
termination_by ls => ls.length
decreasing_by
  all_goals simp only [List.length_cons]
  all_goals
    first
    | omega
    | exact Nat.lt_succ_of_le (captureCode_len rest)
    | exact Nat.lt_succ_of_le (captureList_len ulistM rest)
    | exact Nat.lt_succ_of_le (captureList_len olistM rest)

/-- The converter's result, restricted to the input-determined fields
(the wall-clock statistics and the serialized size are omitted; `created`
and `updated` are `none` when the current-time default applies). -/
structure ParseResult where
  blocks : List Block
  tags : List (List Char)
  wikilinks : List (List Char)
  word_count : Nat
  reading_time : Nat
  created : Option (List Char)
  updated : Option (List Char)
deriving DecidableEq, Repr

/-- `parseMarkdownToStructuredJson` of shared/parser.ts. -/
def parseMarkdownToStructuredJson (validDate : List Char → Bool)
    (markdown : List Char) : ParseResult :=
  let fmp := fmSplit markdown
  let st :=
    match fmp with
    | some (fm, _) =>
      (splitRuns (· = '\n') fm).foldl (fun st l => applyFmLine validDate l st)
        ⟨[], none, none⟩
    | none => ⟨[], none, none⟩
  let body :=
    match fmp with
    | some (_, b) => b
    | none => markdown
  let tags := dedupFirst (st.tags ++ sharedTagScan body)
  let wikis := dedupFirst ((wikiScan body).map trimC)
  let blocks := parseLoop (splitChar '\n' body)
  let wc := countWords body
  { blocks := blocks, tags := tags, wikilinks := wikis, word_count := wc,
    reading_time := max 1 ((wc + 199) / 200), created := st.created,
    updated := st.updated }

/-! ### The PKM route-level inline parser (server/routes.ts lines 191-239) -/

/-- An inline element of the route-level parser. -/
inductive RSpan where
  | text (content : List Char)
  | internal_link (note : List Char) (txt : List Char)
  | external_link (url : List Char) (txt : List Char)
deriving DecidableEq, Repr

/-- The payload of one match of the combined wikilink-or-markdown-link
regex. -/
inductive RData where
  | wiki (raw : List Char)
  | mdlink (txt : List Char) (url : List Char)
deriving DecidableEq, Repr

/-- Match of the wikilink alternative `\[\[[^\]]+\]\]` at the current
position. -/
def wikiAt : List Char → Option (Nat × RData)
  | '[' :: '[' :: r2 =>
    let cont := r2.takeWhile (· ≠ ']')
    if cont.isEmpty then none
    else if startsWithC (r2.drop cont.length) [']', ']'] then
      some (cont.length + 4, RData.wiki cont)
    else none
  | _ => none

/-- The combined regex alternation: the wikilink branch is tried before
the markdown-link branch. -/
def rAt (s : List Char) : Option (Nat × RData) :=
  match wikiAt s with
  | some r => some r
  | none => (linkPairAt s).map (fun p => (p.1, RData.mdlink p.2.1 p.2.2))

def rMatches (text : List Char) : List (Hit RData) :=
  execAll rAt text

/-- The wikilink target: the alias suffix (after the first pipe) is
dropped, then the result is cut at the hash index found in the raw
content (as the source computes it), before trimming. -/
def wikiTarget (w : List Char) : List Char :=
  let n :=
    match w.findIdx? (· = '|') with
    | some i => w.take i
    | none => w
  match w.findIdx? (· = '#') with
  | some j => n.take j
  | none => n

/-- The wikilink display text: the alias when present, else the raw
content, before trimming. -/
def wikiDisplay (w : List Char) : List Char :=
  match w.findIdx? (· = '|') with
  | some i => w.drop (i + 1)
  | none => w

/-- `Set.prototype.add`: insertion-ordered, ignoring an element already
present. -/
def setAdd (l : List (List Char)) (x : List Char) : List (List Char) :=
  if l.contains x then l else l ++ [x]

/-- The internal/external link accumulators threaded through the
route-level inline parser. -/
structure RState where
  ilinks : List (List Char)
  elinks : List (List Char)
deriving DecidableEq, Repr

/-- The element emitted for one match. -/
def rSpanOf : RData → RSpan
  | .wiki w => .internal_link (trimC (wikiTarget w)) (trimC (wikiDisplay w))
  | .mdlink t u => .external_link u t

/-- The link-set updates performed for one match: a wikilink adds its
stripped target to the internal set, a markdown link adds its url to the
external set unconditionally. -/
def rUpdate (st : RState) : RData → RState
  | .wiki w => { st with ilinks := setAdd st.ilinks (trimC (wikiTarget w)) }
  | .mdlink _ u => { st with elinks := setAdd st.elinks u }

/-- The route-level emission walk. -/
def emitR (text : List Char) : List (Hit RData) → Nat → RState → List RSpan × RState
  | [], last, st =>
    (if last < text.length && hasNonWs (text.drop last) then
      [RSpan.text (text.drop last)]
     else [], st)
  | m :: ms, last, st =>
    let p := emitR text ms m.stop (rUpdate st m.data)
    ((if last < m.start && hasNonWs (slice text last m.start) then
       [RSpan.text (slice text last m.start)]
      else []) ++ rSpanOf m.data :: p.1, p.2)

/-- `parseInlineElements` of server/routes.ts (the PKM variant), given the
link sets accumulated so far. -/
def routesParseInline (text : List Char) (st : RState) : List RSpan × RState :=
  let p := emitR text (rMatches text) 0 st
  if p.1.isEmpty && hasNonWs text then ([RSpan.text text], p.2) else p

/-! ### The route-level hashtag collector (server/routes.ts lines 156-163) -/

/-- The body with fenced code blocks replaced by a space. -/
def stripFencesSp (md : List Char) : List Char :=
  runRepl fencedWM md

/-- The hashtags scanned by the route-level parser: fences stripped first,
slash allowed in the tag character class. -/
def routesHashtags (md : List Char) : List (List Char) :=
  tagScanF isTagCharR (stripFencesSp md).length true (stripFencesSp md)

/-- The route-level tag set after scanning the body, starting from the
frontmatter-derived set. -/
def routesTagsFrom (init : List (List Char)) (md : List Char) : List (List Char) :=
  (routesHashtags md).foldl setAdd init

/-! ### PKMParser.extractExternalLinks (shared/pkm-parser.ts) -/

/-- Does the url use the http or https scheme? -/
def isHttp (u : List Char) : Bool :=
  startsWithC u ("http://".data) || startsWithC u ("https://".data)

namespace PKMParser

/-- `PKMParser.extractExternalLinks`: all markdown-link urls beginning
with `http://` or `https://`, deduplicated preserving first-seen order. -/
def extractExternalLinks (content : List Char) : List (List Char) :=
  dedupFirst ((execAll linkPairAt content).filterMap
    (fun h => if isHttp h.data.2 then some h.data.2 else none))

end PKMParser

/-! ### Span decomposition predicates (for the inline-parser invariant) -/

/-- Every character of the list is whitespace. -/
def allWsP (s : List Char) : Prop := ∀ c ∈ s, isWs c = true

/-- The emitted spans decompose the line: reading left to right, each
span's source text occurs next in the line, separated only by
whitespace-only dropped gaps.  This captures ordering, non-overlap and
coverage-up-to-whitespace at once. -/
def IsDecomp : List Char → List SpanT → Prop
  | t, [] => allWsP t
  | t, s :: ss => ∃ w r, t = w ++ sourceText s ++ r ∧ allWsP w ∧ IsDecomp r ss

/-- The collected matches are pairwise disjoint in source order: each
match ends no later than the next begins. -/
def chainDisjointB : List (Hit SpanT) → Bool
  | a :: b :: rest => (a.stop ≤ b.start) && chainDisjointB (b :: rest)
  | _ => true

/-! ## Helper lemmas -/

theorem drop_split (text : List Char) (a b : Nat) (hab : a ≤ b) :
    text.drop a = slice text a b ++ text.drop b := by
  unfold slice
  conv_lhs => rw [← List.take_append_drop (b - a) (text.drop a)]
  rw [List.drop_drop]
  congr 2
  omega

theorem allWsP_of_hasNonWs_false {s : List Char} (h : hasNonWs s = false) : allWsP s := by
  intro c hc
  unfold hasNonWs at h
  rw [List.any_eq_false] at h
  have := h c hc
  simpa using this

/-- The emission walk over a disjoint, sorted, in-bounds match list
decomposes the remaining text: gaps with visible content become Text
spans, whitespace-only gaps are dropped, and every emitted Text span has
non-whitespace content. -/
theorem emitLoop_decomp (text : List Char) :
    ∀ (ms : List (Hit SpanT)) (last : Nat),
      chainDisjointB ms = true →
      (∀ m ∈ ms, m.start < m.stop ∧ m.stop ≤ text.length ∧
        slice text m.start m.stop = sourceText m.data ∧ m.data.isText = false) →
      (∀ m, ms.head? = some m → last ≤ m.start) →
      IsDecomp (text.drop last) (emitLoop text ms last) ∧
      (∀ c : List Char, SpanT.text c ∈ emitLoop text ms last → hasNonWs c = true) := by
  intro ms
  induction ms with
  | nil =>
    intro last hchain hvalid hbound
    rw [emitLoop]
    by_cases hcond : (last < text.length && hasNonWs (text.drop last)) = true
    · rw [if_pos hcond]
      simp only [Bool.and_eq_true, decide_eq_true_eq] at hcond
      constructor
      · exact ⟨[], [], by simp [sourceText], fun c hc => by simp at hc,
          fun c hc => by simp at hc⟩
      · intro c hc
        simp only [List.mem_singleton, SpanT.text.injEq] at hc
        rw [hc]
        exact hcond.2
    · rw [if_neg hcond]
      simp only [Bool.and_eq_true, not_and_or, decide_eq_true_eq] at hcond
      refine ⟨?_, fun c hc => by simp at hc⟩
      show allWsP (text.drop last)
      rcases hcond with hlen | hnw
      · have : text.length ≤ last := by omega
        rw [List.drop_eq_nil_of_le this]
        exact fun c hc => by simp at hc
      · exact allWsP_of_hasNonWs_false (by simpa using hnw)
  | cons m ms ih =>
    intro last hchain hvalid hbound
    have hmv := hvalid m (List.mem_cons_self _ _)
    have hlast : last ≤ m.start := hbound m rfl
    have hchain' : chainDisjointB ms = true := by
      cases ms with
      | nil => rfl
      | cons y ys =>
        rw [chainDisjointB, Bool.and_eq_true] at hchain
        exact hchain.2
    have hvalid' : ∀ x ∈ ms, x.start < x.stop ∧ x.stop ≤ text.length ∧
        slice text x.start x.stop = sourceText x.data ∧ x.data.isText = false :=
      fun x hx => hvalid x (List.mem_cons_of_mem _ hx)
    have hbound' : ∀ x, ms.head? = some x → m.stop ≤ x.start := by
      intro x hx
      cases ms with
      | nil => simp at hx
      | cons y ys =>
        simp only [List.head?_cons, Option.some.injEq] at hx
        subst hx
        rw [chainDisjointB, Bool.and_eq_true] at hchain
        simpa using hchain.1
    obtain ⟨ihd, ihw⟩ := ih m.stop hchain' hvalid' hbound'
    have hsplit : text.drop last
        = slice text last m.start ++ (sourceText m.data ++ text.drop m.stop) := by
      rw [drop_split text last m.start hlast, drop_split text m.start m.stop (le_of_lt hmv.1)]
      rw [hmv.2.2.1]
    rw [emitLoop]
    by_cases hcond : (last < m.start && hasNonWs (slice text last m.start)) = true
    · rw [if_pos hcond]
      simp only [Bool.and_eq_true, decide_eq_true_eq] at hcond
      constructor
      · show IsDecomp (text.drop last)
          (SpanT.text (slice text last m.start) :: m.data :: emitLoop text ms m.stop)
        refine ⟨[], sourceText m.data ++ text.drop m.stop,
          by simpa [sourceText] using hsplit, fun c hc => by simp at hc, ?_⟩
        exact ⟨[], text.drop m.stop, by simp, fun c hc => by simp at hc, ihd⟩
      · intro c hc
        simp only [List.cons_append, List.nil_append, List.mem_cons] at hc
        rcases hc with hc | hc | hc
        · cases hc
          exact hcond.2
        · exact absurd hmv.2.2.2 (by rw [← hc]; simp [SpanT.isText])
        · exact ihw c hc
    · rw [if_neg hcond]
      simp only [Bool.and_eq_true, not_and_or, decide_eq_true_eq] at hcond
      have hgap : allWsP (slice text last m.start) := by
        rcases hcond with hge | hnw
        · have heq : last = m.start := by omega
          subst heq
          unfold slice
          simp
          exact fun c hc => by simp at hc
        · exact allWsP_of_hasNonWs_false (by simpa using hnw)
      constructor
      · show IsDecomp (text.drop last) (m.data :: emitLoop text ms m.stop)
        exact ⟨slice text last m.start, text.drop m.stop,
          by rw [hsplit, List.append_assoc], hgap, ihd⟩
      · intro c hc
        simp only [List.nil_append, List.mem_cons] at hc
        rcases hc with hc | hc
        · exact absurd hmv.2.2.2 (by rw [← hc]; simp [SpanT.isText])
        · exact ihw c hc

/-- The HTML-stripping fallback of `parseInlineElements` is unreachable:
the emission walk already returns a non-empty list whenever the line has
visible content. -/
theorem parseInline_eq_emit (text : List Char) :
    parseInlineElements text = emitLoop text (collectInline text) 0 := by
  unfold parseInlineElements
  simp only []
  by_cases he : (emitLoop text (collectInline text) 0).isEmpty = true
  · have hnw : hasNonWs text = false := by
      by_contra hx
      have hnw' : hasNonWs text = true := by simpa using hx
      have hlen : 0 < text.length := by
        cases text with
        | nil => simp [hasNonWs] at hnw'
        | cons c r => simp
      cases hc : collectInline text with
      | cons m ms =>
        rw [hc, emitLoop] at he
        simp at he
      | nil =>
        rw [hc, emitLoop] at he
        rw [if_pos (by simp [hlen, hnw'])] at he
        simp at he
    rw [hnw]
    simp
  · rw [if_neg (by simp [he])]

theorem head_of_takeWhile_pos {p : Char → Bool} {t : List Char}
    (h : 0 < (t.takeWhile p).length) : ∃ c t', t = c :: t' ∧ p c = true := by
  cases ht : t with
  | nil => simp [ht] at h
  | cons c t' =>
    refine ⟨c, t', rfl, ?_⟩
    by_contra hc
    rw [ht, List.takeWhile_cons] at h
    simp [Bool.not_eq_true] at hc
    simp [hc] at h

theorem wsPlusRest_head_ws {r c : List Char} (h : wsPlusRest r = some c) :
    ∃ x r', r = x :: r' ∧ isWs x = true := by
  unfold wsPlusRest at h
  by_cases hk : (r.takeWhile isWs).length = 0
  · simp [hk] at h
  · exact head_of_takeWhile_pos (by omega)

theorem ws_not_marker {c : Char} (h : isWs c = true) :
    c ≠ '#' ∧ c ≠ '`' ∧ c ≠ '>' ∧ c ≠ '-' ∧ c ≠ '*' ∧ c ≠ '_' := by
  unfold isWs at h
  simp only [Bool.or_eq_true, decide_eq_true_eq] at h
  rcases h with (((((h | h) | h) | h) | h) | h) | h <;> subst h <;> decide

theorem isHr_false_of_ws_mem {t : List Char} (h : ∃ x ∈ t, isWs x = true) :
    isHr t = false := by
  obtain ⟨x, hx, hws⟩ := h
  unfold isHr
  have hm := ws_not_marker hws
  simp only [Bool.and_eq_false_iff]
  right
  rw [List.all_eq_false]
  exact ⟨x, hx, by simp [hm.2.2.2.1, hm.2.2.2.2.1, hm.2.2.2.2.2]⟩

theorem headingM_none_of_head {c : Char} (t : List Char) (hc : ¬ c = '#') :
    headingM (c :: t) = none := by
  simp [headingM, List.takeWhile_cons, hc]

theorem ulistM_ws_mem {t c : List Char} (h : ulistM t = some c) :
    ∃ x ∈ t, isWs x = true := by
  unfold ulistM at h
  split at h
  · rename_i m r hdr
    split at h
    · obtain ⟨x, r', hr, hx⟩ := wsPlusRest_head_ws h
      refine ⟨x, List.mem_of_mem_drop (n := (t.takeWhile isWs).length) ?_, hx⟩
      rw [hdr, hr]
      exact List.mem_cons_of_mem _ (List.mem_cons_self _ _)
    · simp at h
  · simp at h

theorem ulistM_head {t c : List Char} (h : ulistM t = some c) :
    ∃ hd tl, t = hd :: tl ∧ (isWs hd = true ∨ hd = '-' ∨ hd = '*' ∨ hd = '+') := by
  by_cases hw : 0 < (t.takeWhile isWs).length
  · obtain ⟨hd, tl, ht, hws⟩ := head_of_takeWhile_pos hw
    exact ⟨hd, tl, ht, Or.inl hws⟩
  · have hw0 : (t.takeWhile isWs).length = 0 := by omega
    unfold ulistM at h
    rw [hw0, List.drop_zero] at h
    cases ht : t with
    | nil => rw [ht] at h; simp at h
    | cons hd tl =>
      rw [ht] at h
      refine ⟨hd, tl, rfl, Or.inr ?_⟩
      by_contra hall
      push_neg at hall
      simp only [] at h
      simp [hall.1, hall.2.1, hall.2.2] at h

/-- A line matching the unordered-item pattern is classified as an
unordered item: none of the earlier branches of the dispatch can fire. -/
theorem classify_uitem {t c : List Char} (h : ulistM t = some c) :
    classifyLine t = .uitem c := by
  obtain ⟨hd, tl, ht, hhd⟩ := ulistM_head h
  have hwsmem := ulistM_ws_mem h
  have hne : hd ≠ '#' ∧ hd ≠ '`' ∧ hd ≠ '>' := by
    rcases hhd with hws | h1 | h1 | h1
    · have := ws_not_marker hws
      exact ⟨this.1, this.2.1, this.2.2.1⟩
    all_goals subst h1; exact ⟨by decide, by decide, by decide⟩
  rw [ht]
  unfold classifyLine
  rw [if_neg (by simp)]
  rw [headingM_none_of_head tl hne.1]
  have hf : startsWithC (hd :: tl) ['`', '`', '`'] = false := by
    simp [startsWithC, hne.2.1]
  have hb : startsWithC (hd :: tl) ['>'] = false := by
    simp [startsWithC, hne.2.2]
  rw [hf, hb]
  simp only [Bool.false_eq_true, if_false]
  rw [isHr_false_of_ws_mem (ht ▸ hwsmem)]
  simp only [Bool.false_eq_true, if_false]
  rw [ht] at h
  rw [h]

theorem captureList_all (pred : List Char → Option (List Char)) (ls : List (List Char))
    (h : ∀ l ∈ ls, (pred (trimC l)).isSome) :
    captureList pred ls = (ls.map (fun l => (pred (trimC l)).getD []), []) := by
  induction ls with
  | nil => simp [captureList]
  | cons l rest ih =>
    obtain ⟨c, hc⟩ := Option.isSome_iff_exists.mp (h l (List.mem_cons_self _ _))
    rw [captureList, hc]
    rw [ih (fun x hx => h x (List.mem_cons_of_mem _ hx))]
    simp [hc]

theorem parseLoop_nil : parseLoop [] = [] := by rw [parseLoop]

/-- A non-empty run of lines all matching the unordered-item pattern,
whatever the marker of each line, parses to one unordered List block
holding every item. -/
theorem parseLoop_uitem_run (lines : List (List Char)) (hne : lines ≠ [])
    (h : ∀ l ∈ lines, (ulistM (trimC l)).isSome) :
    parseLoop lines
      = [Block.list false (lines.map (fun l => (ulistM (trimC l)).getD []))] := by
  cases lines with
  | nil => exact absurd rfl hne
  | cons l rest =>
    obtain ⟨c, hc⟩ := Option.isSome_iff_exists.mp (h l (List.mem_cons_self _ _))
    rw [parseLoop, classify_uitem hc]
    rw [captureList_all ulistM rest (fun x hx => h x (List.mem_cons_of_mem _ hx))]
    simp [parseLoop_nil, hc]

theorem captureCode_all (ls : List (List Char))
    (h : ∀ l ∈ ls, startsWithC (trimC l) ['`', '`', '`'] = false) :
    captureCode ls = (ls, []) := by
  induction ls with
  | nil => simp [captureCode]
  | cons l rest ih =>
    rw [captureCode]
    rw [if_neg (by simp [h l (List.mem_cons_self _ _)])]
    rw [ih (fun x hx => h x (List.mem_cons_of_mem _ hx))]

theorem classify_fence {t : List Char} (h : startsWithC t ['`', '`', '`'] = true) :
    classifyLine t = .fenceOpen (langOf t) := by
  obtain ⟨t', ht⟩ : ∃ t', t = '`' :: t' := by
    cases t with
    | nil => simp [startsWithC] at h
    | cons c t' =>
      simp only [startsWithC, Bool.and_eq_true, decide_eq_true_eq] at h
      exact ⟨t', by rw [h.1]⟩
  rw [ht] at h ⊢
  unfold classifyLine
  rw [if_neg (by simp)]
  rw [headingM_none_of_head t' (by decide)]
  rw [h]
  simp

theorem trimC_cons_ws {c : Char} (x : List Char) (h : isWs c = true) :
    trimC (c :: x) = trimC x := by
  simp [trimC, List.dropWhile_cons, h]

theorem dropWhile_ws_append {pre : List Char} (x : List Char)
    (h : ∀ c ∈ pre, isWs c = true) :
    (pre ++ x).dropWhile isWs = x.dropWhile isWs := by
  induction pre with
  | nil => simp
  | cons c p ih =>
    rw [List.cons_append, List.dropWhile_cons, if_pos (h c (List.mem_cons_self _ _))]
    exact ih (fun d hd => h d (List.mem_cons_of_mem _ hd))

theorem trimC_ws_front (pre s : List Char) (h : ∀ c ∈ pre, isWs c = true) :
    trimC (pre ++ s) = trimC s := by
  induction pre with
  | nil => simp
  | cons c p ih =>
    rw [List.cons_append, trimC_cons_ws _ (h c (List.mem_cons_self _ _))]
    exact ih (fun d hd => h d (List.mem_cons_of_mem _ hd))

theorem trimC_ws_back (suf s : List Char) (h : ∀ c ∈ suf, isWs c = true) :
    trimC (s ++ suf) = trimC s := by
  induction s with
  | nil =>
    rw [List.nil_append]
    have hd : suf.dropWhile isWs = [] := by
      rw [List.dropWhile_eq_nil_iff]
      exact fun x hx => h x hx
    simp [trimC, hd]
  | cons c s' ih =>
    by_cases hc : isWs c = true
    · rw [List.cons_append, trimC_cons_ws _ hc, trimC_cons_ws _ hc]
      exact ih
    · unfold trimC
      rw [List.cons_append, List.dropWhile_cons, if_neg (by simp [hc])]
      rw [List.dropWhile_cons, if_neg (by simp [hc])]
      rw [List.reverse_cons, List.reverse_cons, List.reverse_append]
      rw [List.append_assoc]
      rw [dropWhile_ws_append (List.reverse s' ++ [c])
        (fun d hd => h d (List.mem_reverse.mp hd))]

/-- Whitespace padding around a line vanishes under `trim`. -/
theorem trimC_pad (pre l suf : List Char)
    (hpre : ∀ c ∈ pre, isWs c = true) (hsuf : ∀ c ∈ suf, isWs c = true) :
    trimC (pre ++ l ++ suf) = trimC l := by
  rw [List.append_assoc, trimC_ws_front _ _ hpre, trimC_ws_back _ _ hsuf]

theorem parseLoop_single_pad (l pre suf : List Char)
    (hpre : ∀ c ∈ pre, isWs c = true) (hsuf : ∀ c ∈ suf, isWs c = true) :
    parseLoop [pre ++ l ++ suf] = parseLoop [l] := by
  rw [parseLoop, trimC_pad pre l suf hpre hsuf]
  conv_rhs => rw [parseLoop]

theorem contains_iff_mem {x : List Char} {l : List (List Char)} :
    l.contains x = true ↔ x ∈ l := by
  simp [List.contains, List.elem_iff]

theorem mem_dedupFirstAux {x : List Char} :
    ∀ {l seen : List (List Char)}, x ∈ dedupFirstAux seen l ↔ (x ∈ l ∧ ¬ x ∈ seen) := by
  intro l
  induction l with
  | nil => intro seen; simp [dedupFirstAux]
  | cons y ys ih =>
    intro seen
    rw [dedupFirstAux]
    by_cases hy : seen.contains y = true
    · rw [if_pos hy]
      rw [ih]
      constructor
      · exact fun ⟨h1, h2⟩ => ⟨List.mem_cons_of_mem _ h1, h2⟩
      · rintro ⟨h1, h2⟩
        rcases List.mem_cons.mp h1 with h1 | h1
        · exact absurd (h1 ▸ contains_iff_mem.mp hy) h2
        · exact ⟨h1, h2⟩
    · rw [if_neg hy]
      constructor
      · intro h
        rcases List.mem_cons.mp h with h | h
        · subst h
          exact ⟨List.mem_cons_self _ _, fun hc => hy (contains_iff_mem.mpr hc)⟩
        · obtain ⟨h1, h2⟩ := ih.mp h
          refine ⟨List.mem_cons_of_mem _ h1, fun hc => h2 (List.mem_append_left _ hc)⟩
      · rintro ⟨h1, h2⟩
        rcases List.mem_cons.mp h1 with h1 | h1
        · subst h1; exact List.mem_cons_self _ _
        · by_cases hxy : x = y
          · subst hxy; exact List.mem_cons_self _ _
          · refine List.mem_cons_of_mem _ (ih.mpr ⟨h1, fun hc => ?_⟩)
            rcases List.mem_append.mp hc with hc | hc
            · exact h2 hc
            · simp at hc; exact hxy hc

theorem mem_dedupFirst {x : List Char} {l : List (List Char)} :
    x ∈ dedupFirst l ↔ x ∈ l := by
  unfold dedupFirst
  rw [mem_dedupFirstAux]
  simp

theorem nodup_dedupFirstAux :
    ∀ (l seen : List (List Char)), (dedupFirstAux seen l).Nodup := by
  intro l
  induction l with
  | nil => intro seen; simp [dedupFirstAux]
  | cons y ys ih =>
    intro seen
    rw [dedupFirstAux]
    by_cases hy : seen.contains y = true
    · rw [if_pos hy]; exact ih seen
    · rw [if_neg hy]
      refine List.nodup_cons.mpr ⟨fun hmem => ?_, ih (seen ++ [y])⟩
      have := (mem_dedupFirstAux.mp hmem).2
      exact this (List.mem_append_right _ (List.mem_singleton.mpr rfl))

theorem nodup_dedupFirst (l : List (List Char)) : (dedupFirst l).Nodup :=
  nodup_dedupFirstAux l []

theorem mem_setAdd_self (l : List (List Char)) (x : List Char) : x ∈ setAdd l x := by
  unfold setAdd
  by_cases hc : l.contains x = true
  · rw [if_pos hc]; exact contains_iff_mem.mp hc
  · rw [if_neg hc]; exact List.mem_append_right _ (List.mem_singleton.mpr rfl)

theorem mem_setAdd_of_mem {l : List (List Char)} {x : List Char} (y : List Char)
    (h : x ∈ l) : x ∈ setAdd l y := by
  unfold setAdd
  by_cases hc : l.contains y = true
  · rw [if_pos hc]; exact h
  · rw [if_neg hc]; exact List.mem_append_left _ h

theorem rUpdate_ilinks_mono {st : RState} {x : List Char} (d : RData)
    (h : x ∈ st.ilinks) : x ∈ (rUpdate st d).ilinks := by
  cases d with
  | wiki w => exact mem_setAdd_of_mem _ h
  | mdlink t u => exact h

theorem emitR_span_mem (text : List Char) :
    ∀ (ms : List (Hit RData)) (last : Nat) (st : RState) (m : Hit RData),
      m ∈ ms → rSpanOf m.data ∈ (emitR text ms last st).1 := by
  intro ms
  induction ms with
  | nil => intro last st m h; simp at h
  | cons hd tl ih =>
    intro last st m h
    rw [emitR]
    rcases List.mem_cons.mp h with h | h
    · subst h
      exact List.mem_append_right _ (List.mem_cons_self _ _)
    · exact List.mem_append_right _
        (List.mem_cons_of_mem _ (ih hd.stop (rUpdate st hd.data) m h))

theorem emitR_ilinks_mem (text : List Char) :
    ∀ (ms : List (Hit RData)) (last : Nat) (st : RState) (x : List Char),
      (x ∈ st.ilinks ∨ ∃ m ∈ ms, ∃ w, m.data = RData.wiki w ∧ x = trimC (wikiTarget w)) →
      x ∈ (emitR text ms last st).2.ilinks := by
  intro ms
  induction ms with
  | nil =>
    intro last st x h
    rcases h with h | ⟨m, hm, _⟩
    · simpa [emitR] using h
    · simp at hm
  | cons hd tl ih =>
    intro last st x h
    rw [emitR]
    rcases h with h | ⟨m, hm, w, hw, hx⟩
    · exact ih hd.stop (rUpdate st hd.data) x (Or.inl (rUpdate_ilinks_mono _ h))
    · rcases List.mem_cons.mp hm with rfl | hm
      · refine ih m.stop (rUpdate st m.data) x (Or.inl ?_)
        rw [hw]
        subst hx
        exact mem_setAdd_self _ _
      · exact ih hd.stop (rUpdate st hd.data) x (Or.inr ⟨m, hm, w, hw, hx⟩)

theorem routesParseInline_snd (text : List Char) (st : RState) :
    (routesParseInline text st).2 = (emitR text (rMatches text) 0 st).2 := by
  unfold routesParseInline
  simp only []
  split <;> rfl

theorem emitR_fst_cons_ne (text : List Char) (m : Hit RData) (ms : List (Hit RData))
    (last : Nat) (st : RState) : (emitR text (m :: ms) last st).1 ≠ [] := by
  rw [emitR]
  simp only []
  intro h
  have := (List.append_eq_nil.mp h).2
  simp at this

theorem routesParseInline_fst_of_ne (text : List Char) (st : RState)
    (h : rMatches text ≠ []) :
    (routesParseInline text st).1 = (emitR text (rMatches text) 0 st).1 := by
  have hne : (emitR text (rMatches text) 0 st).1 ≠ [] := by
    cases hm : rMatches text with
    | nil => exact absurd hm h
    | cons hd tl => exact emitR_fst_cons_ne text hd tl 0 st
  unfold routesParseInline
  simp only []
  rw [if_neg (by simp [List.isEmpty_iff, hne])]

theorem setAdd_nodup {l : List (List Char)} (x : List Char) (h : l.Nodup) :
    (setAdd l x).Nodup := by
  unfold setAdd
  by_cases hc : l.contains x = true
  · rw [if_pos hc]; exact h
  · rw [if_neg hc]
    rw [List.nodup_append]
    refine ⟨h, List.nodup_singleton x, ?_⟩
    intro a ha hb
    simp at hb
    subst hb
    exact hc (contains_iff_mem.mpr ha)

theorem foldl_setAdd_nodup (ts : List (List Char)) :
    ∀ init : List (List Char), init.Nodup → (ts.foldl setAdd init).Nodup := by
  induction ts with
  | nil => intro init h; simpa using h
  | cons t ts' ih =>
    intro init h
    rw [List.foldl_cons]
    exact ih _ (setAdd_nodup t h)

theorem toNat_ofNat_valid (n : Nat) (h : n < 55296) : (Char.ofNat n).toNat = n := by
  unfold Char.ofNat
  split
  · rfl
  · exact absurd (Or.inl h) (by assumption)

theorem lcChar_toNat_upper {c : Char} (h1 : 65 ≤ c.toNat) (h2 : c.toNat ≤ 90) :
    (lcChar c).toNat = c.toNat + 32 := by
  unfold lcChar
  rw [if_pos (by simp [h1, h2])]
  exact toNat_ofNat_valid _ (by omega)

theorem lcChar_fix {c : Char} (h : ¬(65 ≤ c.toNat ∧ c.toNat ≤ 90)) : lcChar c = c := by
  unfold lcChar
  rw [if_neg (by simpa using h)]

theorem lcChar_idem (c : Char) : lcChar (lcChar c) = lcChar c := by
  by_cases h : 65 ≤ c.toNat ∧ c.toNat ≤ 90
  · have h1 := lcChar_toNat_upper h.1 h.2
    apply lcChar_fix
    omega
  · rw [lcChar_fix h]
    exact lcChar_fix h

theorem ws_toNat {c : Char} (h : isWs c = true) : c.toNat < 33 ∨ c.toNat = 160 := by
  unfold isWs at h
  simp only [Bool.or_eq_true, decide_eq_true_eq] at h
  rcases h with (((((h | h) | h) | h) | h) | h) | h <;> subst h <;> decide

theorem isWs_lcChar (c : Char) : isWs (lcChar c) = isWs c := by
  by_cases h : 65 ≤ c.toNat ∧ c.toNat ≤ 90
  · have h1 := lcChar_toNat_upper h.1 h.2
    have w1 : isWs c = false := by
      cases hw : isWs c
      · rfl
      · rcases ws_toNat hw with hlt | heq <;> omega
    have w2 : isWs (lcChar c) = false := by
      cases hw : isWs (lcChar c)
      · rfl
      · rcases ws_toNat hw with hlt | heq <;> omega
    rw [w1, w2]
  · rw [lcChar_fix h]

theorem lcChar_eq_colon {c : Char} (h : lcChar c = ':') : c = ':' := by
  by_cases hc : 65 ≤ c.toNat ∧ c.toNat ≤ 90
  · have h1 := lcChar_toNat_upper hc.1 hc.2
    have h2 : (lcChar c).toNat = 58 := by rw [h]; decide
    omega
  · rwa [lcChar_fix hc] at h

theorem lcStr_no_colon {k : List Char} (h : ¬ ':' ∈ k) : ¬ ':' ∈ lcStr k := by
  intro hmem
  obtain ⟨c, hc, hlc⟩ := List.mem_map.mp hmem
  exact h ((lcChar_eq_colon hlc) ▸ hc)

theorem trimC_lcStr (k : List Char) : trimC (lcStr k) = lcStr (trimC k) := by
  have hfun : (isWs ∘ lcChar) = isWs := funext isWs_lcChar
  unfold trimC lcStr
  rw [List.dropWhile_map, hfun, ← List.map_reverse, List.dropWhile_map, hfun,
    ← List.map_reverse]

theorem lcStr_idem (k : List Char) : lcStr (lcStr k) = lcStr k := by
  unfold lcStr
  rw [List.map_map]
  exact List.map_congr_left (fun c _ => lcChar_idem c)

theorem splitChar_key (k v : List Char) (hk : ¬ ':' ∈ k) :
    splitChar ':' (k ++ ':' :: v) = k :: splitChar ':' v := by
  induction k with
  | nil => simp [splitChar]
  | cons c k' ih =>
    have hc : ¬ c = ':' := fun h => hk (h ▸ List.mem_cons_self _ _)
    rw [List.cons_append, splitChar, if_neg hc]
    rw [ih (fun h => hk (List.mem_cons_of_mem _ h))]

/-! ## Claim theorems -/

/-- C1 (counterexample): the whitespace-only gap between two bold spans
is NOT emitted as a Text span — the emitted spans do not cover the line;
moreover a bold match inside a link match yields overlapping emitted
spans (link, inner strong, and a Text span re-covering the link's tail). -/
theorem inline_spans_gap_counterexample :
    (parseInlineElements ("**a** **b**".data)
        = [SpanT.strong ['a'], SpanT.strong ['b']]) ∧
    (List.flatten ((parseInlineElements ("**a** **b**".data)).map sourceText)
        ≠ "**a** **b**".data) ∧
    (parseInlineElements ("[**a**](u)".data)
        = [SpanT.link ("**a**".data) ['u'], SpanT.strong ['a'],
           SpanT.text ("](u)".data)]) := by
  decide

/-- C1 (amended): whenever the collected matches of a line are pairwise
disjoint (they need not be: a bold inside a link overlaps), the emitted
spans appear in source order, their source texts decompose the line
without overlap, every gap holding a non-whitespace character is emitted
as a Text span, and whitespace-only gaps (including a whitespace-only
trailing remainder) are dropped — so the spans cover the line only up to
dropped whitespace-only gaps; every emitted Text span has non-whitespace
content. -/
theorem inline_spans_decomposition (text : List Char)
    (hchain : chainDisjointB (collectInline text) = true)
    (hvalid : ∀ m ∈ collectInline text, m.start < m.stop ∧ m.stop ≤ text.length ∧
      slice text m.start m.stop = sourceText m.data ∧ m.data.isText = false) :
    IsDecomp text (parseInlineElements text) ∧
    (∀ c : List Char, SpanT.text c ∈ parseInlineElements text → hasNonWs c = true) := by
  rw [parseInline_eq_emit]
  have h := emitLoop_decomp text (collectInline text) 0 hchain hvalid
    (fun m _ => Nat.zero_le _)
  rwa [List.drop_zero] at h

/-- C1 witness: a line with one bold span, text on both sides. -/
theorem inline_spans_decomposition_witness :
    chainDisjointB (collectInline ("a **b** c".data)) = true ∧
    (∀ m ∈ collectInline ("a **b** c".data),
      m.start < m.stop ∧ m.stop ≤ ("a **b** c".data).length ∧
      slice ("a **b** c".data) m.start m.stop = sourceText m.data ∧
      m.data.isText = false) ∧
    (IsDecomp ("a **b** c".data) (parseInlineElements ("a **b** c".data)) ∧
      (∀ c : List Char, SpanT.text c ∈ parseInlineElements ("a **b** c".data) →
        hasNonWs c = true)) :=
  ⟨by decide, by decide,
    inline_spans_decomposition ("a **b** c".data) (by decide) (by decide)⟩

/-- C2 (counterexample): on the spec's own example input, `countWords`
does not return 5 — the inline-code span is replaced by a space, so the
trailing period is tokenized separately. -/
theorem countWords_example_ne_five :
    countWords ("Hello **world**, see [here](http://x.com) and `code`.".data) ≠ 5 := by
  decide

/-- C2 (amended): on the input
`Hello **world**, see [here](http://x.com) and (backtick)code(backtick).`
the word count is exactly 6: the tokens are `Hello`, `world,`, `see`,
`here`, `and`, and `.` — inline code is replaced by a space rather than
deleted, so the final period survives as its own token. -/
theorem countWords_example_six :
    countWords ("Hello **world**, see [here](http://x.com) and `code`.".data) = 6 := by
  decide

/-- C3: the converter is a total function of its input (witnessed by the
accepted termination argument of `parseLoop`, whose line cursor always
advances), and on the empty input string it produces a document with zero
blocks. -/
theorem converter_empty_input (validDate : List Char → Bool) :
    (parseMarkdownToStructuredJson validDate ("".data)).blocks = [] := by
  show parseLoop [([] : List Char)] = []
  rw [parseLoop]
  exact parseLoop_nil

/-- C7: a run of consecutive list lines whose markers are any mix of the
three unordered markers parses to a single unordered List block holding
every item (the marker symbol is neither compared between items nor
stored per item); in particular the two-line input with a dash item then
a star item yields one List with both items. -/
theorem mixed_marker_run_single_list :
    (∀ validDate,
      (parseMarkdownToStructuredJson validDate ("- a\n* b".data)).blocks
        = [Block.list false [['a'], ['b']]]) ∧
    (∀ lines : List (List Char), lines ≠ [] →
      (∀ l ∈ lines, (ulistM (trimC l)).isSome) →
      parseLoop lines
        = [Block.list false (lines.map (fun l => (ulistM (trimC l)).getD []))]) := by
  constructor
  · intro validDate
    show parseLoop ["- a".data, "* b".data] = _
    rw [parseLoop_uitem_run _ (by simp) (by decide)]
    decide
  · exact parseLoop_uitem_run

/-- C7 witness: the general part applied to the claim's concrete run. -/
theorem mixed_marker_run_single_list_witness :
    ((["- a".data, "* b".data] : List (List Char)) ≠ []) ∧
    (∀ l ∈ (["- a".data, "* b".data] : List (List Char)), (ulistM (trimC l)).isSome) ∧
    parseLoop ["- a".data, "* b".data]
      = [Block.list false ((["- a".data, "* b".data] : List (List Char)).map
          (fun l => (ulistM (trimC l)).getD []))] :=
  ⟨by decide, by decide,
    mixed_marker_run_single_list.2 ["- a".data, "* b".data] (by decide) (by decide)⟩

/-- C8: when the block parser reaches an opening code-fence line and no
later line's trim starts with a fence marker, it raises no error and
emits exactly one CodeBlock whose content is every subsequent raw line
newline-joined without trimming, and whose language is the fence's word
tag or `text` when none is given (the `langOf` default); the first
conjunct shows a whole-input instance. -/
theorem unclosed_fence_one_codeblock :
    (∀ validDate,
      (parseMarkdownToStructuredJson validDate ("# T\n```js\nlet x = 1\n  rest".data)).blocks
        = [Block.heading 1 ("T".data),
           Block.code_block ("js".data) ("let x = 1\n  rest".data)]) ∧
    (∀ (l : List Char) (rest : List (List Char)),
      startsWithC (trimC l) ['`', '`', '`'] = true →
      (∀ x ∈ rest, startsWithC (trimC x) ['`', '`', '`'] = false) →
      parseLoop (l :: rest)
        = [Block.code_block (langOf (trimC l)) (List.intercalate ['\n'] rest)]) := by
  have main : ∀ (l : List Char) (rest : List (List Char)),
      startsWithC (trimC l) ['`', '`', '`'] = true →
      (∀ x ∈ rest, startsWithC (trimC x) ['`', '`', '`'] = false) →
      parseLoop (l :: rest)
        = [Block.code_block (langOf (trimC l)) (List.intercalate ['\n'] rest)] := by
    intro l rest h1 h2
    rw [parseLoop, classify_fence h1, captureCode_all rest h2]
    simp [parseLoop_nil]
  constructor
  · intro validDate
    show parseLoop ["# T".data, "```js".data, "let x = 1".data, "  rest".data] = _
    rw [parseLoop]
    rw [show classifyLine (trimC ("# T".data)) = LineClass.heading 1 ("T".data) from
      by decide]
    rw [main ("```js".data) ["let x = 1".data, "  rest".data] (by decide) (by decide)]
    decide
  · exact main

/-- C8 witness: a fence with no language tag and two unclosed lines. -/
theorem unclosed_fence_one_codeblock_witness :
    startsWithC (trimC ("```".data)) ['`', '`', '`'] = true ∧
    (∀ x ∈ (["code line".data, "".data] : List (List Char)),
      startsWithC (trimC x) ['`', '`', '`'] = false) ∧
    parseLoop ["```".data, "code line".data, "".data]
      = [Block.code_block (langOf (trimC ("```".data)))
          (List.intercalate ['\n'] ["code line".data, "".data])] :=
  ⟨by decide, by decide,
    unclosed_fence_one_codeblock.2 ("```".data) ["code line".data, "".data]
      (by decide) (by decide)⟩

/-- C9: block classification is a function of the whitespace-trimmed
line, so padding a line with leading or trailing whitespace changes
neither its classification (in particular indentation alone never
produces a code block) nor, for a single-line document, the parsed
blocks. -/
theorem classification_indentation_insensitive (l pre suf : List Char)
    (hpre : ∀ c ∈ pre, isWs c = true) (hsuf : ∀ c ∈ suf, isWs c = true) :
    classifyLine (trimC (pre ++ l ++ suf)) = classifyLine (trimC l) ∧
    parseLoop [pre ++ l ++ suf] = parseLoop [l] :=
  ⟨by rw [trimC_pad pre l suf hpre hsuf], parseLoop_single_pad l pre suf hpre hsuf⟩

/-- C4 (counterexample): the route-level inline parser adds a relative
link target to the external-links set even though it does not begin with
http or https. -/
theorem routes_elinks_not_filtered :
    (routesParseInline ("[a](./x)".data) ⟨[], []⟩).2.elinks = ["./x".data] ∧
    isHttp ("./x".data) = false := by
  decide

/-- C4 (amended): `PKMParser.extractExternalLinks` collects a markdown
link's url into its external-links result if and only if the url begins
with http or https; the route-level inline span parser, by contrast, adds
every inline link url to its external-links set regardless of scheme
(see the counterexample theorem). -/
theorem extractExternalLinks_http_iff (content : List Char) :
    (∀ u ∈ PKMParser.extractExternalLinks content, isHttp u = true) ∧
    (∀ h ∈ execAll linkPairAt content, isHttp h.data.2 = true →
      h.data.2 ∈ PKMParser.extractExternalLinks content) := by
  constructor
  · intro u hu
    have := mem_dedupFirst.mp hu
    obtain ⟨a, _, ha⟩ := List.mem_filterMap.mp this
    by_cases hh : isHttp a.data.2 = true
    · rw [if_pos hh] at ha
      cases ha
      exact hh
    · rw [if_neg hh] at ha
      cases ha
  · intro h hmem hh
    apply mem_dedupFirst.mpr
    apply List.mem_filterMap.mpr
    exact ⟨h, hmem, by rw [if_pos hh]⟩

/-- C4 witness: an http link occurrence is collected. -/
theorem extractExternalLinks_http_iff_witness :
    ((⟨("a".data, "http://x".data), 0, 13⟩ : Hit (List Char × List Char))
        ∈ execAll linkPairAt ("[a](http://x)".data)) ∧
    isHttp ("http://x".data) = true ∧
    "http://x".data ∈ PKMParser.extractExternalLinks ("[a](http://x)".data) :=
  ⟨by decide, by decide,
    (extractExternalLinks_http_iff ("[a](http://x)".data)).2
      ⟨("a".data, "http://x".data), 0, 13⟩ (by decide) (by decide)⟩

/-- C5 (corrected claim, amended): in the route-level inline parser every
wikilink occurrence has its alias and section suffixes stripped from the
target, the alias is used as display text, and the stripped target is
added to that parser's internal-links set — concretely,
`[[Target Page|Display]]` yields an internal-link span with note
`Target Page` and text `Display` and adds `Target Page` to the set; the
shared parser's wikilinks metadata, by contrast, stores the raw bracket
content (see the counterexample theorem). -/
theorem wikilink_alias_section_stripped :
    ((routesParseInline ("[[Target Page|Display]]".data) ⟨[], []⟩).1
        = [RSpan.internal_link ("Target Page".data) ("Display".data)]) ∧
    ((routesParseInline ("[[Target Page|Display]]".data) ⟨[], []⟩).2.ilinks
        = ["Target Page".data]) ∧
    (∀ (text : List Char) (st : RState) (m : Hit RData) (w : List Char),
      m ∈ rMatches text → m.data = RData.wiki w →
      RSpan.internal_link (trimC (wikiTarget w)) (trimC (wikiDisplay w))
          ∈ (routesParseInline text st).1 ∧
        trimC (wikiTarget w) ∈ (routesParseInline text st).2.ilinks) := by
  refine ⟨by decide, by decide, ?_⟩
  intro text st m w hm hw
  constructor
  · rw [routesParseInline_fst_of_ne text st (fun hnil => by rw [hnil] at hm; simp at hm)]
    have := emitR_span_mem text (rMatches text) 0 st m hm
    rw [hw] at this
    exact this
  · rw [routesParseInline_snd]
    exact emitR_ilinks_mem text (rMatches text) 0 st _ (Or.inr ⟨m, hm, w, hw, rfl⟩)

/-- C5 (counterexample): the shared parser's wikilinks metadata keeps the
raw bracket content — the alias is not stripped and the stripped target
is absent from the set. -/
theorem shared_wikilinks_keep_alias :
    ((parseMarkdownToStructuredJson (fun _ => true)
        ("[[Target Page|Display]]".data)).wikilinks = ["Target Page|Display".data]) ∧
    ¬ ("Target Page".data ∈ (parseMarkdownToStructuredJson (fun _ => true)
        ("[[Target Page|Display]]".data)).wikilinks) := by
  decide

/-- C5 witness: the general part applied to a concrete wikilink match. -/
theorem wikilink_alias_section_stripped_witness :
    ((⟨RData.wiki ("A|B".data), 0, 7⟩ : Hit RData) ∈ rMatches ("[[A|B]]".data)) ∧
    (RSpan.internal_link (trimC (wikiTarget ("A|B".data)))
        (trimC (wikiDisplay ("A|B".data)))
        ∈ (routesParseInline ("[[A|B]]".data) ⟨[], []⟩).1 ∧
      trimC (wikiTarget ("A|B".data))
        ∈ (routesParseInline ("[[A|B]]".data) ⟨[], []⟩).2.ilinks) :=
  ⟨by decide,
    wikilink_alias_section_stripped.2.2 ("[[A|B]]".data) ⟨[], []⟩
      ⟨RData.wiki ("A|B".data), 0, 7⟩ ("A|B".data) (by decide) rfl⟩

/-- C6 (counterexample): the shared parser scans the raw body, so a
hashtag written inside a fenced code block is collected as a tag. -/
theorem shared_tags_inside_fence :
    (parseMarkdownToStructuredJson (fun _ => true) ("```\n#x\n```".data)).tags
      = [['x']] := by
  decide

/-- C6 (amended): the route-level collector strips fenced code first (a
hashtag inside a fence is not collected) and allows slash in the tag
character class; the shared parser scans the raw body without stripping
fences and stops a tag at a slash; both tag sets are deduplicated (shown
here as Nodup of the insertion-ordered accumulators). -/
theorem hashtag_collection_contrast :
    (routesTagsFrom [] ("```\n#x\n``` #y".data) = [['y']]) ∧
    ((parseMarkdownToStructuredJson (fun _ => true) ("```\n#x\n``` #y".data)).tags
        = [['x'], ['y']]) ∧
    ((parseMarkdownToStructuredJson (fun _ => true) ("#a/b".data)).tags = [['a']]) ∧
    (routesTagsFrom [] ("#a/b".data) = [['a', '/', 'b']]) ∧
    (∀ (validDate : List Char → Bool) (md : List Char),
      ((parseMarkdownToStructuredJson validDate md).tags).Nodup) ∧
    (∀ md : List Char, (routesTagsFrom [] md).Nodup) := by
  refine ⟨by decide, by decide, by decide, by decide, ?_, ?_⟩
  · intro validDate md
    exact nodup_dedupFirst _
  · intro md
    exact foldl_setAdd_nodup _ _ List.nodup_nil

/-- C10: frontmatter keys are matched case-insensitively — processing a
frontmatter line whose key segment is replaced by its lower-cased form
yields exactly the same tags/created/updated state update, because the
source trims and lower-cases the key before comparison. -/
theorem fm_keys_case_insensitive (validDate : List Char → Bool) (k v : List Char)
    (st : FmOut) (hk : ¬ ':' ∈ k) :
    applyFmLine validDate (k ++ ':' :: v) st
      = applyFmLine validDate (lcStr k ++ ':' :: v) st := by
  unfold applyFmLine
  rw [splitChar_key k v hk, splitChar_key (lcStr k) v (lcStr_no_colon hk)]
  simp only []
  have hisE : (lcStr k).isEmpty = k.isEmpty := by cases k <;> simp [lcStr]
  have hkey : lcStr (trimC (lcStr k)) = lcStr (trimC k) := by
    rw [trimC_lcStr, lcStr_idem]
  rw [hisE, hkey]

/-- C10 witness: an upper-cased `Updated_At` key is consumed exactly like
`updated_at`. -/
theorem fm_keys_case_insensitive_witness :
    (¬ ':' ∈ ("Updated_At".data : List Char)) ∧
    applyFmLine (fun _ => true) ("Updated_At".data ++ ':' :: " 2024".data)
        ⟨[], none, none⟩
      = applyFmLine (fun _ => true) (lcStr ("Updated_At".data) ++ ':' :: " 2024".data)
        ⟨[], none, none⟩ :=
  ⟨by decide,
    fm_keys_case_insensitive (fun _ => true) ("Updated_At".data) (" 2024".data)
      ⟨[], none, none⟩ (by decide)⟩

/-- C9 witness: an indented heading line classifies and parses as its
unindented form. -/
theorem classification_indentation_insensitive_witness :
    (∀ c ∈ ("   ".data : List Char), isWs c = true) ∧
    (∀ c ∈ (" ".data : List Char), isWs c = true) ∧
    (classifyLine (trimC ("   ".data ++ "# Hi".data ++ " ".data))
        = classifyLine (trimC ("# Hi".data)) ∧
      parseLoop ["   ".data ++ "# Hi".data ++ " ".data] = parseLoop ["# Hi".data]) :=
  ⟨by decide, by decide,
    classification_indentation_insensitive ("# Hi".data) ("   ".data) (" ".data)
      (by decide) (by decide)⟩

end MdParser
